import Mathlib

/-!
Shallow embedding of `bankacct` (src/bankacct.h, src/bankacct.cpp): a
single-invocation command-line bank-account manager.  The embedding models

* the data model (`Account`, bankacct.h lines 71-83),
* the behaviour of the C/C++ library routines the program calls
  (`std::regex` on the literal patterns of bankacct.h, `atoi`,
  `istream` token extraction, default `ostream` formatting of `double`),
* the option collector (`sortArgs`), the consume-once option protocol
  (`yankArg`), credentialed lookup (`findAccount`), the two
  priority-ordered action loops of `parseArgs`, database load
  (`loadDatabase`) and the write-back performed by
  `WriteOnShutdown::~WriteOnShutdown`.

Modelling conventions:

* `double` is modelled as `ℚ`.  Every balance handled by the claims is a
  small decimal, hence exactly representable in binary64, so rational
  arithmetic agrees with the C++ `double` arithmetic on them.
* C strings are Lean `String`s (all data here is ASCII, no embedded NUL).
* pointers into the account vector are indices (`Ptr.acc i`); the two
  uninitialised pointer locals of `parseArgs` start as `Ptr.undef`, and
  using an indeterminate pointer value surfaces as `UB.uninitRead`
  (undefined behaviour in the C++ source).
* writing past the end of a fixed-size character buffer surfaces as
  `UB.bufferOverflow`.
-/

namespace Bankacct

/-! ### Constants from bankacct.h -/

def FIRST_NAME_LENGTH : Nat := 50
def LAST_NAME_LENGTH : Nat := 50
def ACC_NUM_LENGTH : Nat := 5
def PASS_LENGTH : Nat := 6

def SLASH : Char := '/'

def O_HELP : Char := '?'
def O_DATA : Char := 'D'
def O_CHANGE_AREA : Char := 'A'
def O_CHANGE_F : Char := 'F'
def O_CHANGE_PHONE : Char := 'H'
def O_CHANGE_L : Char := 'L'
def O_CHANGE_M : Char := 'M'
def O_CHANGE_SSN : Char := 'S'
def O_TRANS : Char := 'T'
def O_NEWPASS : Char := 'W'
def O_INFO : Char := 'I'
def O_REPORT : Char := 'R'
def O_NUM : Char := 'N'
def O_PASS : Char := 'P'

def ERR_NO_DB : Int := 1
def ERR_DB_NOT_FOUND : Int := 2
def ERR_NO_ACCOUNT : Int := 3
def ERR_NO_INFO : Int := 4
def ERR_REPORT_FILE_ERR : Int := 5
def ERR_NO_TRANSFER_ACCOUNT : Int := 6
def ERR_TOO_MUCH_TRANSFER : Int := 7

/-! ### Character classes (ctype in the "C" locale) -/

def isDigitChar (c : Char) : Bool := decide (48 ≤ c.toNat ∧ c.toNat ≤ 57)

/-- Model of `isalpha` in the default "C" locale: `A`-`Z` or `a`-`z`. -/
def isalphaC (c : Char) : Bool :=
  decide ((65 ≤ c.toNat ∧ c.toNat ≤ 90) ∨ (97 ≤ c.toNat ∧ c.toNat ≤ 122))

/-- Model of `isspace` in the default "C" locale (the separators `operator>>` skips). -/
def isSpaceChar (c : Char) : Bool :=
  c = ' ' || c = '\t' || c = '\n' || c = '\x0b' || c = '\x0c' || c = '\r'

/-! ### Models of the regular expressions of bankacct.h

The patterns are compiled with `std::regex`'s default (modified
ECMAScript) grammar.  In `R_NAME = "^[:alpha:]*$"` the bracket
expression is `[:alpha:]` — NOT the POSIX class `[[:alpha:]]`, so it
denotes the literal character set `{':', 'a', 'l', 'p', 'h'}` (each
listed character is an ordinary class atom).  `R_MIDDLE` has the same
shape but is never used by bankacct.cpp (the middle-initial action uses
`isalpha` instead).  `\d` is `[0-9]`. -/

def nameClassChars : List Char := [':', 'a', 'l', 'p', 'h']

/-- Model of `regex_match(s, regex("^[:alpha:]*$"))` (`R_NAME`, bankacct.h line 53). -/
def matchRName (s : String) : Bool := s.toList.all (fun c => nameClassChars.contains c)

/-- Model of `regex_match(s, regex("^\\d{3}$"))` (`R_AREA`). -/
def matchRArea (s : String) : Bool :=
  decide (s.toList.length = 3) && s.toList.all isDigitChar

/-- Model of `regex_match(s, regex("^\\d{7}$"))` (`R_PHONE`). -/
def matchRPhone (s : String) : Bool :=
  decide (s.toList.length = 7) && s.toList.all isDigitChar

/-- Model of `regex_match(s, regex("^\\d{9}$"))` (`R_SSN`). -/
def matchRSsn (s : String) : Bool :=
  decide (s.toList.length = 9) && s.toList.all isDigitChar

/-- Model of `regex_match(s, regex("^[A-Z0-9]{6}$"))` (`R_PASS`). -/
def matchRPass (s : String) : Bool :=
  decide (s.toList.length = 6) &&
    s.toList.all (fun c => decide (65 ≤ c.toNat ∧ c.toNat ≤ 90) || isDigitChar c)

/-! ### atoi and decimal rendering -/

/-- Numeric value of a decimal digit character. -/
def charVal (c : Char) : Nat := c.toNat - 48

/-- Value of a list of decimal digit characters (most significant first). -/
def digitsToNat (ds : List Char) : Nat := ds.foldl (fun a c => 10 * a + charVal c) 0

def atoiDigits : List Char → Nat → Nat
  | [], acc => acc
  | c :: cs, acc => if isDigitChar c then atoiDigits cs (10 * acc + charVal c) else acc

/-- C `atoi`: skip whitespace, optional sign, then the longest digit
prefix; yields 0 when no digits follow.  (Overflow is not modelled: every
validated input here has at most 9 digits.) -/
def atoi (s : String) : Int :=
  match s.toList.dropWhile (fun c => isSpaceChar c) with
  | '-' :: cs => -(atoiDigits cs 0 : Int)
  | '+' :: cs => (atoiDigits cs 0 : Int)
  | cs => (atoiDigits cs 0 : Int)

def digitChar (k : Nat) : Char :=
  match k with
  | 0 => '0' | 1 => '1' | 2 => '2' | 3 => '3' | 4 => '4'
  | 5 => '5' | 6 => '6' | 7 => '7' | 8 => '8' | 9 => '9'
  | _ => '*'

/-- Decimal digits of `n` (most significant first), fuel-driven so that it
reduces inside the kernel; `natReprAux fuel n` is correct for `n < fuel`. -/
def natReprAux : Nat → Nat → List Char
  | 0, _ => []
  | fuel + 1, n => if n = 0 then [] else natReprAux fuel (n / 10) ++ [digitChar (n % 10)]

/-- Decimal rendering of an unsigned integer, as `operator<<(unsigned)`
produces it. -/
def natRepr (n : Nat) : String := if n = 0 then "0" else ⟨natReprAux (n + 1) n⟩

def digitCount (n : Nat) : Nat := (natRepr n).toList.length

/-! ### Default `ostream` formatting of `double`

`out << (double)x` uses `%g`-style general formatting with precision 6:
round to 6 significant digits, use fixed notation when the decimal
exponent `e` satisfies `-4 ≤ e < 6` (stripping trailing fractional
zeros), scientific notation otherwise.  Modelled over `ℚ`. -/

/-- Round `num / den` to the nearest integer, ties to even. -/
def roundHalfEven (num den : Nat) : Nat :=
  let q := num / den
  let r := num % den
  if 2 * r < den then q
  else if den < 2 * r then q + 1
  else if q % 2 = 0 then q else q + 1

/-- Least `k ≥ 1` with `b ≤ a * 10 ^ k`, fuel-driven (used for values `< 1`). -/
def smallExp : Nat → Nat → Nat → Nat
  | _, _, 0 => 0
  | a, b, fuel + 1 => if b ≤ 10 * a then 1 else 1 + smallExp (10 * a) b fuel

/-- Significand (6 digits, in `[10^5, 10^6)`) and decimal exponent of `a / b`
(`a, b ≥ 1`). -/
def sigExp (a b : Nat) : Nat × Int :=
  let e : Int := if b ≤ a then (digitCount (a / b) : Int) - 1
                 else -(smallExp a b (digitCount b + 1) : Int)
  let n : Nat :=
    if e ≤ 5 then roundHalfEven (a * 10 ^ (5 - e).toNat) b
    else roundHalfEven a (b * 10 ^ (e - 5).toNat)
  if n = 1000000 then (100000, e + 1) else (n, e)

def dropTrailingZeros (l : List Char) : List Char :=
  (l.reverse.dropWhile (fun c => c = '0')).reverse

def fixedRender (digs : List Char) (e : Int) : String :=
  if 0 ≤ e then
    let ip := digs.take (e.toNat + 1)
    let fp := dropTrailingZeros (digs.drop (e.toNat + 1))
    ⟨ip⟩ ++ (if fp.isEmpty then "" else "." ++ ⟨fp⟩)
  else
    let fp := dropTrailingZeros (List.replicate ((-e).toNat - 1) '0' ++ digs)
    "0." ++ ⟨fp⟩

def sciRender (digs : List Char) (e : Int) : String :=
  let mant : String :=
    match digs with
    | d :: rest =>
      let fp := dropTrailingZeros rest
      ⟨[d]⟩ ++ (if fp.isEmpty then "" else "." ++ ⟨fp⟩)
    | [] => "0"
  let sgn := if e < 0 then "-" else "+"
  let ea := e.natAbs
  let es := if ea < 10 then "0" ++ natRepr ea else natRepr ea
  mant ++ "e" ++ sgn ++ es

def formatPos (a b : Nat) : String :=
  let p := sigExp a b
  let digs := (natRepr p.1).toList
  if -4 ≤ p.2 ∧ p.2 < 6 then fixedRender digs p.2 else sciRender digs p.2

/-- Model of `out << (double)q` with default stream flags (precision 6, defaultfloat),
as used by `WriteOnShutdown::~WriteOnShutdown` and `displayInfo`. -/
def formatBalance (q : ℚ) : String :=
  if q = 0 then "0"
  else (if q < 0 then "-" else "") ++ formatPos q.num.natAbs q.den

/-! ### istream token parsing -/

/-- Longest digit prefix of a character list, and the remainder. -/
def takeDigits : List Char → List Char × List Char
  | [] => ([], [])
  | c :: cs =>
    if isDigitChar c then
      let p := takeDigits cs
      (c :: p.1, p.2)
    else ([], c :: cs)

/-- Model of `istream >> (unsigned int)` applied to one whitespace-delimited token:
succeeds on a pure digit token whose value fits in 32 bits. -/
def parseNat? (s : String) : Option Nat :=
  let ds := s.toList
  if ds ≠ [] ∧ ds.all isDigitChar ∧ digitsToNat ds < 4294967296 then
    some (digitsToNat ds)
  else none

/-- Model of `istream >> (double)` applied to one token, for plain decimal tokens
`[+-]? digits [. digits]?` (the record grammar of the database file;
exponent forms are outside the modelled grammar). -/
def parseBalance? (s : String) : Option ℚ :=
  let sp : Bool × List Char :=
    match s.toList with
    | '-' :: cs => (true, cs)
    | '+' :: cs => (false, cs)
    | cs => (false, cs)
  let ipr := takeDigits sp.2
  let fpr : List Char × List Char :=
    match ipr.2 with
    | '.' :: cs => takeDigits cs
    | r => ([], r)
  if fpr.2 = [] ∧ (ipr.1 ≠ [] ∨ fpr.1 ≠ []) then
    let mag : ℚ := (digitsToNat ipr.1 : ℚ) + (digitsToNat fpr.1 : ℚ) / (10 : ℚ) ^ fpr.1.length
    some (if sp.1 then -mag else mag)
  else none

/-! ### The data model (bankacct.h lines 71-83) -/

structure Account where
  first : String
  last : String
  middle : Char
  social : Nat
  area : Nat
  phone : Nat
  balance : ℚ
  number : String
  password : String
  nameLength : Nat
deriving Repr, DecidableEq

def dummyAccount : Account :=
  { first := "", last := "", middle := ' ', social := 0, area := 0, phone := 0,
    balance := 0, number := "", password := "", nameLength := 0 }

/-! ### Option collector: `sortArgs` (bankacct.cpp lines 74-92)

`map<char, vector<char*>>` is modelled as an association list kept
sorted by key (`std::map` iterates keys in ascending order).  `sortArgs`
walks the whole `argv` array (index 0 included, as in the source):
an argument is collected iff its first character is `/` and it has a
second character; the second character is the option code and the rest
(possibly empty) is the value, appended to the code's queue. -/

abbrev ArgMap := List (Char × List String)

def mapInsert (m : ArgMap) (c : Char) (v : String) : ArgMap :=
  match m with
  | [] => [(c, [v])]
  | (k, vs) :: rest =>
    if c = k then (k, vs ++ [v]) :: rest
    else if c < k then (c, [v]) :: (k, vs) :: rest
    else (k, vs) :: mapInsert rest c v

/-- The `(code, value)` reading of one raw argument, or `none` when the
argument fails the marker + code shape (cpp line 79). -/
def argParse (arg : String) : Option (Char × String) :=
  match arg.toList with
  | c0 :: c1 :: rest => if c0 = SLASH then some (c1, ⟨rest⟩) else none
  | _ => none

def sortArgsAux : List String → ArgMap → ArgMap
  | [], m => m
  | a :: rest, m =>
    sortArgsAux rest (match argParse a with
      | none => m
      | some p => mapInsert m p.1 p.2)

def sortArgs (argv : List String) : ArgMap := sortArgsAux argv []

def mapKeys (m : ArgMap) : List Char := m.map Prod.fst

def hasKey (m : ArgMap) (c : Char) : Bool := (mapKeys m).contains c

/-- The queue of values held for a code (`[]` when the key is absent). -/
def lookupQ (m : ArgMap) (c : Char) : List String :=
  match m with
  | [] => []
  | (k, vs) :: rest => if c = k then vs else lookupQ rest c

/-! ### `yankArg` (bankacct.cpp lines 252-259) -/

/-- Returns the oldest value queued for `arg` and the map with that value
removed; `none` when the key is absent or its queue is exhausted (the key
itself is never removed). -/
def yankArg (m : ArgMap) (arg : Char) : Option String × ArgMap :=
  match m with
  | [] => (none, [])
  | (k, vs) :: rest =>
    if arg = k then
      match vs with
      | [] => (none, (k, vs) :: rest)
      | v :: vs' => (some v, (k, vs') :: rest)
    else
      let p := yankArg rest arg
      (p.1, (k, vs) :: p.2)

/-! ### `findAccount` (bankacct.cpp lines 266-272) -/

/-- Index of the first account whose number and password both match;
`none` when either credential is missing (null) or nothing matches. -/
def findAccount (people : List Account) (number password : Option String) : Option Nat :=
  match number, password with
  | some n, some p =>
    people.findIdx? (fun acc => acc.number = n ∧ acc.password = p)
  | _, _ => none

/-! ### `loadDatabase` (bankacct.cpp lines 347-367)

The file is modelled as its whitespace-delimited tokens plus a flag
telling whether whitespace follows the last token.  Each loop iteration
extracts nine tokens; if any extraction hits end of input the partial
record is discarded (`if(input.eof()) break;`).  When the file does NOT
end in trailing whitespace, extracting the ninth token of the last
record sets `eofbit`, so that complete final record is ALSO discarded.
A token that fails to extract for its field (malformed digits, oversized
buffer, multi-character middle initial) puts the real stream in a fail
state from which the loop never terminates (or overruns a buffer);
those inputs are modelled as `none`. -/

def fieldOK (pos : Nat) (s : String) : Bool :=
  match pos with
  | 0 => decide (s.toList.length ≤ LAST_NAME_LENGTH)
  | 1 => decide (s.toList.length ≤ FIRST_NAME_LENGTH)
  | 2 => decide (s.toList.length = 1)
  | 3 => (parseNat? s).isSome
  | 4 => (parseNat? s).isSome
  | 5 => (parseNat? s).isSome
  | 6 => (parseBalance? s).isSome
  | 7 => decide (s.toList.length ≤ ACC_NUM_LENGTH)
  | _ => decide (s.toList.length ≤ PASS_LENGTH)

/-- The nine extractions of one loop iteration (cpp lines 353-362),
in source order `last first middle social area phone balance number
password`, plus the `nameLength` computation. -/
def parseRecord? (l f m so ar ph b n pw : String) : Option Account :=
  match m.toList, parseNat? so, parseNat? ar, parseNat? ph, parseBalance? b with
  | [mc], some soc, some area, some phone, some bal =>
    if l.toList.length ≤ LAST_NAME_LENGTH ∧ f.toList.length ≤ FIRST_NAME_LENGTH ∧
        n.toList.length ≤ ACC_NUM_LENGTH ∧ pw.toList.length ≤ PASS_LENGTH then
      some { first := f, last := l, middle := mc, social := soc, area := area,
             phone := phone, balance := bal, number := n, password := pw,
             nameLength := f.toList.length + l.toList.length + 4 }
    else none
  | _, _, _, _, _ => none

/-- Do the tokens of an incomplete trailing record all extract cleanly
(so the loop hits `eof` and discards them) rather than jam the stream? -/
def partialChunkOK (toks : List String) : Bool :=
  (List.range toks.length).all (fun i => fieldOK i (toks.getD i ""))

def loadDatabase : List String → Bool → Option (List Account)
  | [], _ => some []
  | l :: f :: m :: so :: ar :: ph :: b :: n :: pw :: rest, tws =>
    match parseRecord? l f m so ar ph b n pw with
    | none => none
    | some acct =>
      if rest = [] ∧ tws = false then some []
      else
        match loadDatabase rest tws with
        | none => none
        | some accts => some (acct :: accts)
  | toks, _ => if partialChunkOK toks then some [] else none

/-! ### Persistence: `WriteOnShutdown::~WriteOnShutdown` (bankacct.h lines 98-111)

Writes, for every account, the nine fields one per line (`social`,
`area`, `phone` as decimal integers, `balance` through the default
`double` formatting), each record followed by a blank line.  At token
level that is nine tokens per record. -/

def writeAccountTokens (acc : Account) : List String :=
  [acc.last, acc.first, ⟨[acc.middle]⟩, natRepr acc.social, natRepr acc.area,
   natRepr acc.phone, formatBalance acc.balance, acc.number, acc.password]

def persistTokens (database : List Account) : List String :=
  (database.map writeAccountTokens).flatten

/-! ### The action engine: `parseArgs` (bankacct.cpp lines 99-236)

`Account* acc; Account* acc2;` (lines 126-127) are uninitialised
locals.  `Ptr.undef` models their indeterminate initial value; using an
indeterminate pointer (branching on `acc2 == nullptr`, or copying `acc`
into `acc2` for use) is undefined behaviour, surfaced as
`UB.uninitRead`.  `strcpy` into the fixed 50-character name buffers with
a longer validated value is `UB.bufferOverflow`.  `RunRes.written` is
the database flushed by `WriteOnShutdown`'s destructor, which runs when
control leaves the scope opened at line 119 — i.e. at every `return`
site of `parseArgs` after that line. -/

inductive Ptr where
  | undef
  | null
  | acc (i : Nat)
deriving Repr, DecidableEq

inductive UB where
  | uninitRead
  | bufferOverflow
  | nullReportFile
  | loadMisbehaves
deriving Repr, DecidableEq

structure LoopSt where
  args : ArgMap
  people : List Account
  acc : Ptr
  acc2 : Ptr
  trace : List Char
deriving Repr, DecidableEq

structure RunRes where
  exitCode : Int
  people : List Account
  written : Option (List Account)
  trace : List Char
deriving Repr, DecidableEq

abbrev StepOut := Except UB (Sum RunRes LoopSt)

/-- Model of `sort(people->begin(), people->end(), strcmp on number < 0)`
(cpp lines 122-124), modelled as insertion sort by account number
(account numbers are unique, so every sort yields this result). -/
def insertByNumber (a : Account) : List Account → List Account
  | [] => [a]
  | b :: rest =>
    if a.number ≤ b.number then a :: b :: rest else b :: insertByNumber a rest

def sortByNumber : List Account → List Account
  | [] => []
  | a :: rest => insertByNumber a (sortByNumber rest)

/-- Dereference `people[i]` for a pointer known to come from `findAccount`. -/
def getAcc (people : List Account) (i : Nat) : Account :=
  (people.get? i).getD dummyAccount

/-- In-place field update through an account pointer. -/
def setAcc (people : List Account) (i : Nat) (f : Account → Account) : List Account :=
  match people.get? i with
  | some a => people.set i (f a)
  | none => people

/-- The shared head of every field-mutation case (cpp lines 134-138):
`acc = findAccount(people, yankArg(args, O_NUM), yankArg(args, O_PASS));`
then, when the lookup failed, abort with `ERR_NO_ACCOUNT` if `acc2` is
null, otherwise fall back to `acc2`.  Branching on an uninitialised
`acc2` is undefined behaviour. -/
def mutResolve (people : List Account) (args : ArgMap) (acc2 : Ptr) :
    Except UB (Sum Int (Nat × ArgMap)) :=
  let y1 := yankArg args O_NUM
  let y2 := yankArg y1.2 O_PASS
  match findAccount people y1.1 y2.1 with
  | some i => .ok (.inr (i, y2.2))
  | none =>
    match acc2 with
    | .undef => .error .uninitRead
    | .null => .ok (.inl ERR_NO_ACCOUNT)
    | .acc j => .ok (.inr (j, y2.2))

/-- One field-mutation switch case: resolve the acting account, yank the
case's own value, validate it, apply the write.  `valid` is the case's
format check and `apply` the assignment into the record. -/
def fieldMutCase (code : Char) (valid : String → Bool)
    (apply : List Account → Nat → String → Except UB (List Account))
    (st : LoopSt) : StepOut :=
  let tr := st.trace ++ [code]
  match mutResolve st.people st.args st.acc2 with
  | .error u => .error u
  | .ok (.inl e) => .ok (.inl ⟨e, st.people, some st.people, tr⟩)
  | .ok (.inr (i, args1)) =>
    let y := yankArg args1 code
    match y.1 with
    | none => .ok (.inl ⟨ERR_NO_INFO, st.people, some st.people, tr⟩)
    | some buf =>
      if valid buf then
        match apply st.people i buf with
        | .error u => .error u
        | .ok people' =>
          .ok (.inr { st with people := people', args := y.2, acc := .acc i, trace := tr })
      else .ok (.inl ⟨ERR_NO_INFO, st.people, some st.people, tr⟩)

/-- The `O_TRANS` case (cpp lines 193-204): resolve source and
destination through two independent yank+find cycles, yank the amount,
validate it against `R_NAME`, refuse when the source balance is below
the converted amount, otherwise move the amount across. -/
def transCase (st : LoopSt) : StepOut :=
  let tr := st.trace ++ [O_TRANS]
  let y1 := yankArg st.args O_NUM
  let y2 := yankArg y1.2 O_PASS
  match findAccount st.people y1.1 y2.1 with
  | none => .ok (.inl ⟨ERR_NO_ACCOUNT, st.people, some st.people, tr⟩)
  | some i =>
    let y3 := yankArg y2.2 O_NUM
    let y4 := yankArg y3.2 O_PASS
    match findAccount st.people y3.1 y4.1 with
    | none => .ok (.inl ⟨ERR_NO_TRANSFER_ACCOUNT, st.people, some st.people, tr⟩)
    | some j =>
      let y5 := yankArg y4.2 O_TRANS
      match y5.1 with
      | none => .ok (.inl ⟨ERR_NO_INFO, st.people, some st.people, tr⟩)
      | some buf =>
        if matchRName buf then
          let amt : Int := atoi buf
          if (getAcc st.people i).balance < (amt : ℚ) then
            .ok (.inl ⟨ERR_TOO_MUCH_TRANSFER, st.people, some st.people, tr⟩)
          else
            let p1 := setAcc st.people i (fun a => { a with balance := a.balance - (amt : ℚ) })
            let p2 := setAcc p1 j (fun a => { a with balance := a.balance + (amt : ℚ) })
            .ok (.inr { st with people := p2, args := y5.2, acc := .acc i, acc2 := .acc j,
                                trace := tr })
        else .ok (.inl ⟨ERR_NO_INFO, st.people, some st.people, tr⟩)

/-- The first-pass switch (cpp lines 132-215), dispatching on one map key. -/
def step1 (st : LoopSt) (code : Char) : StepOut :=
  if code = O_CHANGE_AREA then
    fieldMutCase O_CHANGE_AREA matchRArea
      (fun p i buf => .ok (setAcc p i (fun a => { a with area := (atoi buf).toNat }))) st
  else if code = O_CHANGE_F then
    fieldMutCase O_CHANGE_F matchRName
      (fun p i buf =>
        if FIRST_NAME_LENGTH < buf.toList.length then .error .bufferOverflow
        else .ok (setAcc p i (fun a => { a with first := buf }))) st
  else if code = O_CHANGE_PHONE then
    fieldMutCase O_CHANGE_PHONE matchRPhone
      (fun p i buf => .ok (setAcc p i (fun a => { a with phone := (atoi buf).toNat }))) st
  else if code = O_CHANGE_L then
    fieldMutCase O_CHANGE_L matchRName
      (fun p i buf =>
        if LAST_NAME_LENGTH < buf.toList.length then .error .bufferOverflow
        else .ok (setAcc p i (fun a => { a with last := buf }))) st
  else if code = O_CHANGE_M then
    fieldMutCase O_CHANGE_M (fun buf => isalphaC (buf.toList.headD (Char.ofNat 0)))
      (fun p i buf => .ok (setAcc p i (fun a => { a with middle := buf.toList.headD (Char.ofNat 0) }))) st
  else if code = O_CHANGE_SSN then
    fieldMutCase O_CHANGE_SSN matchRSsn
      (fun p i buf => .ok (setAcc p i (fun a => { a with social := (atoi buf).toNat }))) st
  else if code = O_TRANS then
    transCase st
  else if code = O_NEWPASS then
    fieldMutCase O_NEWPASS matchRPass
      (fun p i buf => .ok (setAcc p i (fun a => { a with password := buf }))) st
  else
    .ok (.inr st)

/-- The first `for(pair ... : *args)` loop, iterating the map's key
sequence; after every non-returning iteration `acc2 = acc;` (line 216). -/
def runLoop1 : List Char → LoopSt → StepOut
  | [], st => .ok (.inr st)
  | c :: rest, st =>
    match step1 st c with
    | .error u => .error u
    | .ok (.inl r) => .ok (.inl r)
    | .ok (.inr st') => runLoop1 rest { st' with acc2 := st'.acc }

/-- The second-pass switch (cpp lines 221-232): `O_INFO` resolves a
display account (falling back to `acc`), `O_REPORT` writes the report
file.  `reportOK` tells whether `createReport` can open a given path.
Display output is not part of the modelled state. -/
def step2 (reportOK : String → Bool) (st : LoopSt) (code : Char) : StepOut :=
  if code = O_INFO then
    let tr := st.trace ++ [O_INFO]
    let y0 := yankArg st.args O_INFO
    let y1 := yankArg y0.2 O_NUM
    let y2 := yankArg y1.2 O_PASS
    match findAccount st.people y1.1 y2.1 with
    | some i => .ok (.inr { st with args := y2.2, acc2 := .acc i, trace := tr })
    | none =>
      match st.acc with
      | .undef => .error .uninitRead
      | .null => .ok (.inl ⟨ERR_NO_ACCOUNT, st.people, some st.people, tr⟩)
      | .acc j => .ok (.inr { st with args := y2.2, acc2 := .acc j, trace := tr })
  else if code = O_REPORT then
    let tr := st.trace ++ [O_REPORT]
    let y := yankArg st.args O_REPORT
    match y.1 with
    | none => .error .nullReportFile
    | some f =>
      if reportOK f then .ok (.inr { st with args := y.2, trace := tr })
      else .ok (.inl ⟨ERR_REPORT_FILE_ERR, st.people, some st.people, tr⟩)
  else
    .ok (.inr st)

def runLoop2 (reportOK : String → Bool) : List Char → LoopSt → StepOut
  | [], st => .ok (.inr st)
  | c :: rest, st =>
    match step2 reportOK st c with
    | .error u => .error u
    | .ok (.inl r) => .ok (.inl r)
    | .ok (.inr st') => runLoop2 reportOK rest st'

/-- The part of `parseArgs` that runs once the database has loaded: the
scope of the `WriteOnShutdown` guard (cpp lines 119-236).  Sort the
store, run the two priority loops, and on every defined exit path flush
the store (`written`). -/
def parseArgsAfterLoad (args : ArgMap) (people0 : List Account)
    (reportOK : String → Bool) : Except UB RunRes :=
  let people := sortByNumber people0
  match runLoop1 (mapKeys args) ⟨args, people, .undef, .undef, []⟩ with
  | .error u => .error u
  | .ok (.inl r) => .ok r
  | .ok (.inr st1) =>
    match runLoop2 reportOK (mapKeys st1.args) st1 with
    | .error u => .error u
    | .ok (.inl r) => .ok r
    | .ok (.inr st2) => .ok ⟨0, st2.people, some st2.people, st2.trace⟩

/-- Model of `parseArgs` (cpp lines 99-236).  The help menu (lines 101-103) only
writes to standard output, which is not part of the modelled state.  The
database file is `fs name = some (tokens, trailingWhitespace)` when the
file opens, `none` when it cannot be opened.  A file whose tokens jam
the extraction loop is `UB.loadMisbehaves` (the real loop never
terminates). -/
def parseArgs (args : ArgMap) (fs : String → Option (List String × Bool))
    (reportOK : String → Bool) : Except UB RunRes :=
  match (lookupQ args O_DATA).getLast? with
  | none => .ok ⟨ERR_NO_DB, [], none, []⟩
  | some fname =>
    match fs fname with
    | none => .ok ⟨ERR_DB_NOT_FOUND, [], none, []⟩
    | some file =>
      match loadDatabase file.1 file.2 with
      | none => .error .loadMisbehaves
      | some people => parseArgsAfterLoad args people reportOK

/-- Model of `main` (cpp lines 53-59): collect the raw arguments, then run them. -/
def runProgram (argv : List String) (fs : String → Option (List String × Bool))
    (reportOK : String → Bool) : Except UB RunRes :=
  parseArgs (sortArgs argv) fs reportOK

/-! ### Spec-side vocabulary

Definitions below formalise wording of the specification itself, for
comparison with the behaviour of the embedded code. -/

/-- The values supplied on the command line for one option code, in
supply order (spec section 4.1). -/
def suppliedValues (argv : List String) (c : Char) : List String :=
  argv.filterMap (fun a =>
    match argParse a with
    | some p => if p.1 = c then some p.2 else none
    | none => none)

/-- The fixed mutation priority order of spec section 4.4: change-area,
change-first, change-phone, change-last, change-middle, change-ssn,
transfer, change-password. -/
def priorityList : List Char :=
  [O_CHANGE_AREA, O_CHANGE_F, O_CHANGE_PHONE, O_CHANGE_L, O_CHANGE_M,
   O_CHANGE_SSN, O_TRANS, O_NEWPASS]

/-- The second-pass order of spec section 4.4: info display, then report. -/
def passTwoList : List Char := [O_INFO, O_REPORT]

/-- A decimal digit string with its leading zeros removed (the loss the
spec concedes for the integer-stored fields). -/
def stripZeros (s : String) : String :=
  match s.toList.dropWhile (fun c => c = '0') with
  | [] => "0"
  | l => ⟨l⟩

/-- The round-trip output record the spec's claim predicts: every token
reproduced verbatim except social/area/phone, which may only lose
leading zeros. -/
def specRoundTripRecord : List String → List String
  | [l, f, m, so, ar, ph, b, n, pw] =>
    [l, f, m, stripZeros so, stripZeros ar, stripZeros ph, b, n, pw]
  | r => r

/-- The round-trip output record the code actually produces on a
well-formed record: verbatim text fields, leading-zero loss on
social/area/phone, and the balance re-serialised through the default
`double` output format. -/
def amendedRoundTripRecord : List String → List String
  | [l, f, m, so, ar, ph, b, n, pw] =>
    [l, f, m, stripZeros so, stripZeros ar, stripZeros ph,
     formatBalance ((parseBalance? b).getD 0), n, pw]
  | r => r

/-- Well-formedness of one 9-token source record (spec section 6): nine
whitespace-free tokens, names within their buffers, single-character
middle initial, digit-only social/area/phone fitting an unsigned int,
plain decimal balance, number and password within their buffers. -/
def WFRecord (r : List String) : Bool :=
  match r with
  | [l, f, m, so, ar, ph, b, n, pw] =>
    [l, f, m, so, ar, ph, b, n, pw].all
        (fun s => !s.toList.isEmpty && s.toList.all (fun c => !isSpaceChar c)) &&
      decide (l.toList.length ≤ LAST_NAME_LENGTH) &&
      decide (f.toList.length ≤ FIRST_NAME_LENGTH) &&
      decide (m.toList.length = 1) &&
      (parseNat? so).isSome && (parseNat? ar).isSome && (parseNat? ph).isSome &&
      (parseBalance? b).isSome &&
      decide (n.toList.length ≤ ACC_NUM_LENGTH) &&
      decide (pw.toList.length ≤ PASS_LENGTH)
  | _ => false

/-! ### Demonstration fixtures

The concrete store and database file of the spec's worked scenario
(section 8): account `A0001` (Doe Jane, balance 100.00) and account
`A0002` (Roe Jon, balance 10.00). -/

def acctA : Account :=
  { first := "Jane", last := "Doe", middle := 'J', social := 123456789, area := 555,
    phone := 5551234, balance := 100, number := "A0001", password := "ABC123",
    nameLength := 11 }

def acctB : Account :=
  { first := "Jon", last := "Roe", middle := 'K', social := 222222222, area := 666,
    phone := 6662345, balance := 10, number := "A0002", password := "DEF456",
    nameLength := 10 }

def demoToks : List String :=
  ["Doe", "Jane", "J", "123456789", "555", "5551234", "100.00", "A0001", "ABC123",
   "Roe", "Jon", "K", "222222222", "666", "6662345", "10.00", "A0002", "DEF456"]

/-- A filesystem holding the demonstration database under the name `db`. -/
def demoFs : String → Option (List String × Bool) :=
  fun n => if n = "db" then some (demoToks, true) else none

def alwaysWritable : String → Bool := fun _ => true

/-! ### Lemmas about the collector and the yank protocol -/

theorem yankArg_fst (m : ArgMap) (c : Char) :
    (yankArg m c).1 = (lookupQ m c).head? := by
  induction m with
  | nil => rfl
  | cons kv rest ih =>
    obtain ⟨k, vs⟩ := kv
    by_cases h : c = k
    · subst h
      cases vs <;> simp [yankArg, lookupQ]
    · simp [yankArg, lookupQ, h, ih]

theorem yankArg_snd_lookupQ (m : ArgMap) (c : Char) :
    lookupQ (yankArg m c).2 c = (lookupQ m c).tail := by
  induction m with
  | nil => rfl
  | cons kv rest ih =>
    obtain ⟨k, vs⟩ := kv
    by_cases h : c = k
    · subst h
      cases vs <;> simp [yankArg, lookupQ]
    · simp [yankArg, lookupQ, h, ih]

/-- The `std::map` key invariant: keys strictly ascending. -/
def mapSorted (m : ArgMap) : Prop := (mapKeys m).Sorted (· < ·)

theorem mapKeys_cons (k : Char) (vs : List String) (rest : ArgMap) :
    mapKeys ((k, vs) :: rest) = k :: mapKeys rest := rfl

theorem mapInsert_eq_found (rest : ArgMap) (k : Char) (vs : List String) (v : String) :
    mapInsert ((k, vs) :: rest) k v = (k, vs ++ [v]) :: rest := by
  simp [mapInsert]

theorem mapInsert_eq_before (rest : ArgMap) (k k' : Char) (vs : List String) (v : String)
    (hk : k ≠ k') (hlt : k < k') :
    mapInsert ((k', vs) :: rest) k v = (k, [v]) :: (k', vs) :: rest := by
  simp [mapInsert, hk, hlt]

theorem mapInsert_eq_after (rest : ArgMap) (k k' : Char) (vs : List String) (v : String)
    (hk : k ≠ k') (hlt : ¬k < k') :
    mapInsert ((k', vs) :: rest) k v = (k', vs) :: mapInsert rest k v := by
  simp [mapInsert, hk, hlt]

theorem mem_mapKeys_mapInsert (m : ArgMap) (k : Char) (v : String) (c : Char) :
    c ∈ mapKeys (mapInsert m k v) ↔ c = k ∨ c ∈ mapKeys m := by
  induction m with
  | nil => simp [mapInsert, mapKeys]
  | cons kv rest ih =>
    obtain ⟨k', vs⟩ := kv
    by_cases hk : k = k'
    · subst hk
      rw [mapInsert_eq_found, mapKeys_cons, mapKeys_cons]
      simp only [List.mem_cons]
      tauto
    · by_cases hlt : k < k'
      · rw [mapInsert_eq_before rest k k' vs v hk hlt, mapKeys_cons, mapKeys_cons]
        simp only [List.mem_cons]
      · rw [mapInsert_eq_after rest k k' vs v hk hlt, mapKeys_cons, mapKeys_cons]
        simp only [List.mem_cons, ih]
        tauto

theorem lookupQ_eq_nil_of_not_mem (m : ArgMap) (c : Char)
    (h : c ∉ mapKeys m) : lookupQ m c = [] := by
  induction m with
  | nil => rfl
  | cons kv rest ih =>
    obtain ⟨k, vs⟩ := kv
    rw [mapKeys_cons, List.mem_cons] at h
    push_neg at h
    simp [lookupQ, h.1, ih h.2]

theorem mapSorted_mapInsert (m : ArgMap) (k : Char) (v : String)
    (h : mapSorted m) : mapSorted (mapInsert m k v) := by
  induction m with
  | nil => simp [mapSorted, mapInsert, mapKeys]
  | cons kv rest ih =>
    obtain ⟨k', vs⟩ := kv
    rw [mapSorted, mapKeys_cons, List.sorted_cons] at h
    by_cases hk : k = k'
    · subst hk
      rw [mapSorted, mapInsert_eq_found, mapKeys_cons, List.sorted_cons]
      exact h
    · by_cases hlt : k < k'
      · rw [mapSorted, mapInsert_eq_before rest k k' vs v hk hlt, mapKeys_cons,
          mapKeys_cons, List.sorted_cons]
        constructor
        · intro b hb
          rw [List.mem_cons] at hb
          rcases hb with hb | hb
          · exact hb ▸ hlt
          · exact lt_trans hlt (h.1 b hb)
        · rw [List.sorted_cons]
          exact h
      · have hgt : k' < k := by
          rcases lt_trichotomy k k' with h1 | h1 | h1
          · exact absurd h1 hlt
          · exact absurd h1 hk
          · exact h1
        rw [mapSorted, mapInsert_eq_after rest k k' vs v hk hlt, mapKeys_cons,
          List.sorted_cons]
        constructor
        · intro b hb
          rcases (mem_mapKeys_mapInsert rest k v b).1 hb with hb | hb
          · exact hb ▸ hgt
          · exact h.1 b hb
        · exact ih h.2

theorem lookupQ_mapInsert (m : ArgMap) (k : Char) (v : String) (c : Char)
    (hs : mapSorted m) :
    lookupQ (mapInsert m k v) c =
      if c = k then lookupQ m c ++ [v] else lookupQ m c := by
  induction m with
  | nil =>
    by_cases h : c = k <;> simp [mapInsert, lookupQ, h]
  | cons kv rest ih =>
    obtain ⟨k', vs⟩ := kv
    rw [mapSorted, mapKeys_cons, List.sorted_cons] at hs
    by_cases hk : k = k'
    · subst hk
      rw [mapInsert_eq_found]
      by_cases hc : c = k <;> simp [lookupQ, hc]
    · by_cases hlt : k < k'
      · rw [mapInsert_eq_before rest k k' vs v hk hlt]
        by_cases hc : c = k
        · subst hc
          have hnm : c ∉ mapKeys rest := by
            intro hm
            exact absurd (lt_trans hlt (hs.1 c hm)) (lt_irrefl c)
          simp [lookupQ, hk, lookupQ_eq_nil_of_not_mem rest c hnm]
        · simp [lookupQ, hc]
      · rw [mapInsert_eq_after rest k k' vs v hk hlt]
        by_cases hc : c = k'
        · subst hc
          simp [lookupQ, Ne.symm hk]
        · simp [lookupQ, hc, ih hs.2]

theorem mapSorted_sortArgsAux (argv : List String) (m : ArgMap)
    (h : mapSorted m) : mapSorted (sortArgsAux argv m) := by
  induction argv generalizing m with
  | nil => exact h
  | cons a rest ih =>
    simp only [sortArgsAux]
    cases argParse a with
    | none => exact ih m h
    | some p => exact ih _ (mapSorted_mapInsert m p.1 p.2 h)

theorem mapSorted_sortArgs (argv : List String) : mapSorted (sortArgs argv) :=
  mapSorted_sortArgsAux argv [] (by simp [mapSorted, mapKeys])

theorem lookupQ_sortArgsAux (argv : List String) (m : ArgMap) (c : Char)
    (hs : mapSorted m) :
    lookupQ (sortArgsAux argv m) c = lookupQ m c ++ suppliedValues argv c := by
  induction argv generalizing m with
  | nil => simp [sortArgsAux, suppliedValues]
  | cons a rest ih =>
    simp only [sortArgsAux, suppliedValues, List.filterMap_cons]
    cases h : argParse a with
    | none => simpa [suppliedValues] using ih m hs
    | some p =>
      have hs' := mapSorted_mapInsert m p.1 p.2 hs
      by_cases hc : p.1 = c
      · subst hc
        simp [ih _ hs', lookupQ_mapInsert m p.1 p.2 _ hs, suppliedValues]
      · simp [ih _ hs', lookupQ_mapInsert m p.1 p.2 _ hs, hc, Ne.symm hc, suppliedValues]

theorem lookupQ_sortArgs (argv : List String) (c : Char) :
    lookupQ (sortArgs argv) c = suppliedValues argv c := by
  simpa [lookupQ] using
    lookupQ_sortArgsAux argv [] c (by simp [mapSorted, mapKeys])

/-! ### Claim C5 -/

/-- C5: for every option code for which exactly two values were supplied
on the command line, `yankArg` on that code returns the first-supplied
value on the first call and the second-supplied value on the second
call, removing each from the collector, and every further call on that
code returns absent; a yank on a code never supplied returns absent. -/
theorem C5_yank_fifo (argv : List String) (c c' : Char) (v1 v2 : String)
    (h : suppliedValues argv c = [v1, v2]) (h' : suppliedValues argv c' = []) :
    (yankArg (sortArgs argv) c).1 = some v1 ∧
    (yankArg (yankArg (sortArgs argv) c).2 c).1 = some v2 ∧
    (yankArg (yankArg (yankArg (sortArgs argv) c).2 c).2 c).1 = none ∧
    (yankArg (sortArgs argv) c').1 = none := by
  have h0 : lookupQ (sortArgs argv) c = [v1, v2] := (lookupQ_sortArgs argv c).trans h
  have h1 : lookupQ (yankArg (sortArgs argv) c).2 c = [v2] := by
    rw [yankArg_snd_lookupQ, h0]
    rfl
  have h2 : lookupQ (yankArg (yankArg (sortArgs argv) c).2 c).2 c = [] := by
    rw [yankArg_snd_lookupQ, h1]
    rfl
  refine ⟨?_, ?_, ?_, ?_⟩
  · rw [yankArg_fst, h0]
    rfl
  · rw [yankArg_fst, h1]
    rfl
  · rw [yankArg_fst, h2]
    rfl
  · rw [yankArg_fst, lookupQ_sortArgs, h']
    rfl

/-- Witness for C5 at a concrete command line: `/Fone /Ftwo`, probe
codes `F` (supplied twice) and `H` (never supplied). -/
theorem C5_yank_fifo_witness :
    (yankArg (sortArgs ["./bankacct", "/Fone", "/Ftwo"]) 'F').1 = some "one" ∧
    (yankArg (yankArg (sortArgs ["./bankacct", "/Fone", "/Ftwo"]) 'F').2 'F').1 = some "two" ∧
    (yankArg (yankArg (yankArg (sortArgs ["./bankacct", "/Fone", "/Ftwo"]) 'F').2 'F').2 'F').1
      = none ∧
    (yankArg (sortArgs ["./bankacct", "/Fone", "/Ftwo"]) 'H').1 = none :=
  C5_yank_fifo ["./bankacct", "/Fone", "/Ftwo"] 'F' 'H' "one" "two" (by rfl) (by rfl)

/-! ### Claim C10 -/

theorem list_set_self {α : Type} : ∀ (l : List α) (i : Nat) (a : α),
    l.get? i = some a → l.set i a = l := by
  intro l
  induction l with
  | nil => intro i a h; cases h
  | cons x xs ih =>
    intro i a h
    cases i with
    | zero =>
      simp only [List.get?] at h
      cases h
      rfl
    | succ n =>
      simp only [List.get?] at h
      simp [List.set, ih n a h]

theorem setAcc_congr_id (p : List Account) (i : Nat) (f : Account → Account)
    (hf : ∀ a, f a = a) : setAcc p i f = p := by
  unfold setAcc
  cases h : p.get? i with
  | none => rfl
  | some a =>
    show p.set i (f a) = p
    rw [hf]
    exact list_set_self p i a h

theorem nameClass_not_digit (c : Char) (h : nameClassChars.contains c = true) :
    isDigitChar c = false ∧ isSpaceChar c = false ∧ c ≠ '-' ∧ c ≠ '+' := by
  have hm : c ∈ nameClassChars := by
    simpa using h
  fin_cases hm <;> exact ⟨rfl, rfl, by decide, by decide⟩

/-- C10 (implicit): every transfer action that passes the amount
validation transfers exactly 0 — the `R_NAME` pattern used to validate
the amount (`^[:alpha:]*$`) accepts no string beginning with a digit or
a sign, so `atoi` of any accepted amount yields 0; consequently a
transfer case that completes without error leaves the account list,
hence every balance, unchanged. -/
theorem C10_accepted_transfer_amounts_move_nothing :
    (∀ s, matchRName s = true → atoi s = 0) ∧
    (∀ st st', transCase st = .ok (.inr st') → st'.people = st.people) := by
  have hatoi : ∀ s, matchRName s = true → atoi s = 0 := by
    intro s hs
    unfold matchRName at hs
    rw [List.all_eq_true] at hs
    unfold atoi
    cases hl : s.toList with
    | nil => rfl
    | cons c cs =>
      have hc := nameClass_not_digit c (hs c (by rw [hl]; exact List.mem_cons_self c cs))
      rw [List.dropWhile_cons_of_neg (by simp [hc.2.1])]
      split
      · rename_i heq
        injection heq with h1 _
        exact absurd h1 hc.2.2.1
      · rename_i heq
        injection heq with h1 _
        exact absurd h1 hc.2.2.2
      · simp [atoiDigits, hc.1]
  refine ⟨hatoi, ?_⟩
  intro st st' h
  simp only [transCase] at h
  split at h
  · exact absurd h (by simp)
  · split at h
    · exact absurd h (by simp)
    · split at h
      · exact absurd h (by simp)
      · rename_i buf hbuf
        split at h
        · rename_i hmatch
          split at h
          · exact absurd h (by simp)
          · have h0 : atoi buf = 0 := hatoi buf hmatch
            injection h with h
            injection h with h
            subst h
            show (setAcc (setAcc st.people _ _) _ _) = st.people
            rw [setAcc_congr_id _ _ _ (fun a => by rw [h0]; simp),
              setAcc_congr_id _ _ _ (fun a => by rw [h0]; simp)]
        · exact absurd h (by simp)

/-- A transfer-case entry state: one account, credentials supplied twice,
amount value the empty string (which `R_NAME` accepts). -/
def c10St : LoopSt :=
  { args := [('N', ["A0001", "A0001"]), ('P', ["ABC123", "ABC123"]), ('T', [""])],
    people := [acctA], acc := .undef, acc2 := .undef, trace := [] }

/-- The state `transCase` produces from `c10St`. -/
def c10St' : LoopSt :=
  { args := [('N', []), ('P', []), ('T', [])],
    people := [acctA], acc := .acc 0, acc2 := .acc 0, trace := [O_TRANS] }

/-- Witness for C10: the accepted amount string `alpha` converts to 0,
and the completed transfer from `c10St` leaves the store unchanged. -/
theorem C10_accepted_transfer_amounts_move_nothing_witness :
    atoi "alpha" = 0 ∧ c10St'.people = c10St.people :=
  ⟨C10_accepted_transfer_amounts_move_nothing.1 "alpha" (by rfl),
   C10_accepted_transfer_amounts_move_nothing.2 c10St c10St' (by with_unfolding_all rfl)⟩

/-! ### Claim C2 -/

/-- C2 counterexample: a run in which the second mutation action
(change-first-name) is given an explicit account number and password
that match no record — `findAccount` on that pair is absent — yet the
run does not abort with the no-account error: it falls back to the
account resolved by the earlier change-area action, mutates it, and
exits 0. -/
theorem C2_wrong_credentials_fallback_counterexample :
    findAccount [acctA, acctB] (some "A0001") (some "XXXXXX") = none ∧
    runProgram
        ["./bankacct", "/Ddb", "/A777", "/Falpha", "/NA0001", "/PABC123",
         "/NA0001", "/PXXXXXX"] demoFs alwaysWritable =
      .ok ⟨0, [{ acctA with area := 777, first := "alpha" }, acctB],
           some [{ acctA with area := 777, first := "alpha" }, acctB],
           [O_CHANGE_AREA, O_CHANGE_F]⟩ ∧
    (0 : Int) ≠ ERR_NO_ACCOUNT := by
  refine ⟨by rfl, by with_unfolding_all rfl, by decide⟩

/-- C2 (amended): for every mutation action whose two credential yanks
both return values matching no record, the engine aborts with the
no-account error only when no account was resolved by a previous action
in the run (`acc2` null); when a previous action did resolve an account,
the engine silently falls back to that account and proceeds with it. -/
theorem C2_explicit_bad_credentials (people : List Account) (args : ArgMap)
    (acc2 : Ptr) (n p : String)
    (hn : (yankArg args O_NUM).1 = some n)
    (hp : (yankArg (yankArg args O_NUM).2 O_PASS).1 = some p)
    (hf : findAccount people (some n) (some p) = none) :
    (acc2 = Ptr.null → mutResolve people args acc2 = .ok (.inl ERR_NO_ACCOUNT)) ∧
    (∀ j, acc2 = Ptr.acc j →
      mutResolve people args acc2 =
        .ok (.inr (j, (yankArg (yankArg args O_NUM).2 O_PASS).2))) := by
  constructor
  · intro h2
    subst h2
    simp only [mutResolve]
    rw [hn, hp, hf]
  · intro j h2
    subst h2
    simp only [mutResolve]
    rw [hn, hp, hf]

/-- Witness for C2 (amended): with one prior resolved account (index 0)
and explicit wrong credentials, `mutResolve` yields the fallback account,
not the no-account abort. -/
theorem C2_explicit_bad_credentials_witness :
    mutResolve [acctA] [('N', ["A0001"]), ('P', ["XXXXXX"])] (Ptr.acc 0) =
      .ok (.inr (0, [('N', ([] : List String)), ('P', ([] : List String))])) :=
  (C2_explicit_bad_credentials [acctA] [('N', ["A0001"]), ('P', ["XXXXXX"])]
    (Ptr.acc 0) "A0001" "XXXXXX" (by rfl) (by rfl) (by rfl)).2 0 rfl

/-! ### Claims C1, C3, C8, C9 (evaluations at the failing inputs) -/

/-- C1 at its failing input: transferring 30 from `A0001` (balance 100,
so 30 ≤ 100) to `A0002` with correct credentials for both does NOT
produce balances 70/40 — the amount string `30` fails the `R_NAME`
validation pattern, so the engine aborts with the missing-information
error and both accounts are untouched. -/
theorem C1_numeric_transfer_amount_rejected :
    matchRName "30" = false ∧
    parseArgsAfterLoad
        [('D', ["db"]), ('N', ["A0001", "A0002"]), ('P', ["ABC123", "DEF456"]),
         ('T', ["30"])]
        [acctA, acctB] alwaysWritable =
      .ok ⟨ERR_NO_INFO, [acctA, acctB], some [acctA, acctB], [O_TRANS]⟩ ∧
    ERR_NO_INFO ≠ (0 : Int) := by
  refine ⟨by rfl, by with_unfolding_all rfl, by decide⟩

/-- C3 at its failing input: the spec's concrete scenario (source file
with the `Doe Jane` record and a second account `A0002`, transfer of 30
with correct credentials) exits with the missing-information error, and
the persisted tokens show the original balances `100` and `10`, not
`70.00` and `40.00`. -/
theorem C3_concrete_transfer_scenario_aborts :
    runProgram
        ["./bankacct", "/Ddb", "/T30", "/NA0001", "/PABC123", "/NA0002", "/PDEF456"]
        demoFs alwaysWritable =
      .ok ⟨ERR_NO_INFO, [acctA, acctB], some [acctA, acctB], [O_TRANS]⟩ ∧
    persistTokens [acctA, acctB] =
      ["Doe", "Jane", "J", "123456789", "555", "5551234", "100", "A0001", "ABC123",
       "Roe", "Jon", "K", "222222222", "666", "6662345", "10", "A0002", "DEF456"] ∧
    ERR_NO_INFO ≠ (0 : Int) := by
  refine ⟨by with_unfolding_all rfl, by with_unfolding_all rfl, by decide⟩

/-- C8 at its failing input: the change-first-name action does reject a
value containing a digit (`Jane9`), but it ALSO rejects the purely
alphabetic value `Bob` — the `^[:alpha:]*$` bracket expression matches
only the characters `: a l p h` — so the run aborts with the
missing-information error and the stored first name is unchanged. -/
theorem C8_alphabetic_first_name_rejected :
    matchRName "Jane9" = false ∧
    matchRName "Bob" = false ∧
    runProgram ["./bankacct", "/Ddb", "/FBob", "/NA0001", "/PABC123"]
        demoFs alwaysWritable =
      .ok ⟨ERR_NO_INFO, [acctA, acctB], some [acctA, acctB], [O_CHANGE_F]⟩ := by
  refine ⟨by rfl, by rfl, by with_unfolding_all rfl⟩

/-- C9 at its failing input: the very first mutation action of a run,
with no account number or password supplied at all, does not reliably
abort with the no-account error — the code branches on the uninitialised
pointer `acc2` (bankacct.cpp line 136), which is undefined behaviour. -/
theorem C9_first_action_fallback_reads_uninitialised :
    runProgram ["./bankacct", "/Ddb", "/A555"] demoFs alwaysWritable =
      .error UB.uninitRead := by
  with_unfolding_all rfl

/-! ### Claim C4 -/

theorem fieldMutCase_written (code : Char) (valid : String → Bool)
    (apply : List Account → Nat → String → Except UB (List Account)) (st : LoopSt)
    (r : RunRes) (h : fieldMutCase code valid apply st = .ok (.inl r)) :
    r.written = some r.people := by
  simp only [fieldMutCase] at h
  split at h
  · exact Except.noConfusion h
  · injection h with h
    injection h with h
    subst h
    rfl
  · split at h
    · injection h with h
      injection h with h
      subst h
      rfl
    · split at h
      · split at h
        · exact Except.noConfusion h
        · injection h with h
          exact Sum.noConfusion h
      · injection h with h
        injection h with h
        subst h
        rfl

theorem transCase_written (st : LoopSt) (r : RunRes)
    (h : transCase st = .ok (.inl r)) : r.written = some r.people := by
  simp only [transCase] at h
  split at h
  · injection h with h
    injection h with h
    subst h
    rfl
  · split at h
    · injection h with h
      injection h with h
      subst h
      rfl
    · split at h
      · injection h with h
        injection h with h
        subst h
        rfl
      · split at h
        · split at h
          · injection h with h
            injection h with h
            subst h
            rfl
          · injection h with h
            exact Sum.noConfusion h
        · injection h with h
          injection h with h
          subst h
          rfl

theorem step1_written (st : LoopSt) (c : Char) (r : RunRes)
    (h : step1 st c = .ok (.inl r)) : r.written = some r.people := by
  unfold step1 at h
  split at h
  · exact fieldMutCase_written _ _ _ _ _ h
  · split at h
    · exact fieldMutCase_written _ _ _ _ _ h
    · split at h
      · exact fieldMutCase_written _ _ _ _ _ h
      · split at h
        · exact fieldMutCase_written _ _ _ _ _ h
        · split at h
          · exact fieldMutCase_written _ _ _ _ _ h
          · split at h
            · exact fieldMutCase_written _ _ _ _ _ h
            · split at h
              · exact transCase_written _ _ h
              · split at h
                · exact fieldMutCase_written _ _ _ _ _ h
                · injection h with h
                  exact Sum.noConfusion h

theorem step2_written (reportOK : String → Bool) (st : LoopSt) (c : Char) (r : RunRes)
    (h : step2 reportOK st c = .ok (.inl r)) : r.written = some r.people := by
  simp only [step2] at h
  split at h
  · split at h
    · injection h with h
      exact Sum.noConfusion h
    · split at h
      · exact Except.noConfusion h
      · injection h with h
        injection h with h
        subst h
        rfl
      · injection h with h
        exact Sum.noConfusion h
  · split at h
    · split at h
      · exact Except.noConfusion h
      · split at h
        · injection h with h
          exact Sum.noConfusion h
        · injection h with h
          injection h with h
          subst h
          rfl
    · injection h with h
      exact Sum.noConfusion h

theorem runLoop1_written : ∀ (keys : List Char) (st : LoopSt) (r : RunRes),
    runLoop1 keys st = .ok (.inl r) → r.written = some r.people := by
  intro keys
  induction keys with
  | nil =>
    intro st r h
    injection h with h
    exact Sum.noConfusion h
  | cons c rest ih =>
    intro st r h
    simp only [runLoop1] at h
    split at h
    · exact Except.noConfusion h
    · rename_i r0 heq
      injection h with h
      injection h with h
      subst h
      exact step1_written st c _ heq
    · exact ih _ r h

theorem runLoop2_written (reportOK : String → Bool) :
    ∀ (keys : List Char) (st : LoopSt) (r : RunRes),
    runLoop2 reportOK keys st = .ok (.inl r) → r.written = some r.people := by
  intro keys
  induction keys with
  | nil =>
    intro st r h
    injection h with h
    exact Sum.noConfusion h
  | cons c rest ih =>
    intro st r h
    simp only [runLoop2] at h
    split at h
    · exact Except.noConfusion h
    · rename_i r0 heq
      injection h with h
      injection h with h
      subst h
      exact step2_written reportOK st c _ heq
    · exact ih _ r h

/-- C4: on every run that gets past loading the database — i.e. enters
the scope guarded by `WriteOnShutdown` — and terminates with defined
behaviour, the whole record store is flushed back out on the exit path
taken, success and every error abort alike: the persisted store is
exactly the in-memory store as it stood at that exit, mutations applied
by earlier actions included. -/
theorem C4_store_written_on_every_exit_path (args : ArgMap) (people : List Account)
    (reportOK : String → Bool) (r : RunRes)
    (h : parseArgsAfterLoad args people reportOK = .ok r) :
    r.written = some r.people := by
  simp only [parseArgsAfterLoad] at h
  split at h
  · exact Except.noConfusion h
  · rename_i r0 heq
    injection h with h
    subst h
    exact runLoop1_written _ _ _ heq
  · rename_i st1 heq1
    split at h
    · exact Except.noConfusion h
    · rename_i r0 heq2
      injection h with h
      subst h
      exact runLoop2_written reportOK _ _ _ heq2
    · injection h with h
      subst h
      rfl

/-- Witness for C4: a run whose change-area action succeeds (area set to
777) and whose change-first-name action then aborts with the
missing-information error; the aborting exit still reports the mutated
store as written. -/
theorem C4_store_written_witness :
    (RunRes.mk ERR_NO_INFO [{ acctA with area := 777 }, acctB]
        (some [{ acctA with area := 777 }, acctB]) [O_CHANGE_AREA, O_CHANGE_F]).written =
      some (RunRes.mk ERR_NO_INFO [{ acctA with area := 777 }, acctB]
        (some [{ acctA with area := 777 }, acctB]) [O_CHANGE_AREA, O_CHANGE_F]).people :=
  C4_store_written_on_every_exit_path
    [('A', ["777"]), ('D', ["db"]), ('F', ["9bad"]), ('N', ["A0001", "A0001"]),
     ('P', ["ABC123", "ABC123"])]
    [acctA, acctB] alwaysWritable _ (by with_unfolding_all rfl)

/-! ### Claim C7: lemma infrastructure

The first loop walks the map's keys in ascending order and acts exactly
on the mutation codes present; the second loop acts on info/report.  The
executed-action trace is therefore a prefix of the filtered fixed
priority sequence.  Yanking never adds or removes map keys, so the key
sequence is stable across both loops. -/

theorem yankArg_keys (m : ArgMap) (c : Char) :
    mapKeys (yankArg m c).2 = mapKeys m := by
  induction m with
  | nil => rfl
  | cons kv rest ih =>
    obtain ⟨k, vs⟩ := kv
    by_cases h : c = k
    · subst h
      cases vs <;> simp [yankArg, mapKeys]
    · simp only [yankArg, if_neg h]
      rw [mapKeys_cons, mapKeys_cons, ih]

theorem mutResolve_keys (people : List Account) (args : ArgMap) (acc2 : Ptr)
    (i : Nat) (args' : ArgMap) (h : mutResolve people args acc2 = .ok (.inr (i, args'))) :
    mapKeys args' = mapKeys args := by
  simp only [mutResolve] at h
  split at h
  · injection h with h
    injection h with h
    cases h
    rw [yankArg_keys, yankArg_keys]
  · split at h
    · exact Except.noConfusion h
    · injection h with h
      exact Sum.noConfusion h
    · injection h with h
      injection h with h
      cases h
      rw [yankArg_keys, yankArg_keys]

theorem fieldMutCase_inr (code : Char) (valid : String → Bool)
    (apply : List Account → Nat → String → Except UB (List Account)) (st : LoopSt)
    (st' : LoopSt) (h : fieldMutCase code valid apply st = .ok (.inr st')) :
    st'.trace = st.trace ++ [code] ∧ mapKeys st'.args = mapKeys st.args := by
  simp only [fieldMutCase] at h
  split at h
  · exact Except.noConfusion h
  · injection h with h
    exact Sum.noConfusion h
  · rename_i i args1 hres
    split at h
    · injection h with h
      exact Sum.noConfusion h
    · split at h
      · split at h
        · exact Except.noConfusion h
        · injection h with h
          injection h with h
          subst h
          refine ⟨rfl, ?_⟩
          show mapKeys (yankArg args1 code).2 = mapKeys st.args
          rw [yankArg_keys]
          exact mutResolve_keys _ _ _ _ _ hres
      · injection h with h
        exact Sum.noConfusion h

theorem fieldMutCase_inl_trace (code : Char) (valid : String → Bool)
    (apply : List Account → Nat → String → Except UB (List Account)) (st : LoopSt)
    (r : RunRes) (h : fieldMutCase code valid apply st = .ok (.inl r)) :
    r.trace = st.trace ++ [code] := by
  simp only [fieldMutCase] at h
  split at h
  · exact Except.noConfusion h
  · injection h with h
    injection h with h
    subst h
    rfl
  · split at h
    · injection h with h
      injection h with h
      subst h
      rfl
    · split at h
      · split at h
        · exact Except.noConfusion h
        · injection h with h
          exact Sum.noConfusion h
      · injection h with h
        injection h with h
        subst h
        rfl

theorem transCase_inr (st st' : LoopSt) (h : transCase st = .ok (.inr st')) :
    st'.trace = st.trace ++ [O_TRANS] ∧ mapKeys st'.args = mapKeys st.args := by
  simp only [transCase] at h
  split at h
  · injection h with h
    exact Sum.noConfusion h
  · split at h
    · injection h with h
      exact Sum.noConfusion h
    · split at h
      · injection h with h
        exact Sum.noConfusion h
      · split at h
        · split at h
          · injection h with h
            exact Sum.noConfusion h
          · injection h with h
            injection h with h
            subst h
            refine ⟨rfl, ?_⟩
            show mapKeys (yankArg _ O_TRANS).2 = mapKeys st.args
            rw [yankArg_keys, yankArg_keys, yankArg_keys, yankArg_keys, yankArg_keys]
        · injection h with h
          exact Sum.noConfusion h

theorem transCase_inl_trace (st : LoopSt) (r : RunRes)
    (h : transCase st = .ok (.inl r)) : r.trace = st.trace ++ [O_TRANS] := by
  simp only [transCase] at h
  split at h
  · injection h with h
    injection h with h
    subst h
    rfl
  · split at h
    · injection h with h
      injection h with h
      subst h
      rfl
    · split at h
      · injection h with h
        injection h with h
        subst h
        rfl
      · split at h
        · split at h
          · injection h with h
            injection h with h
            subst h
            rfl
          · injection h with h
            exact Sum.noConfusion h
        · injection h with h
          injection h with h
          subst h
          rfl

theorem step1_inl (st : LoopSt) (c : Char) (r : RunRes)
    (h : step1 st c = .ok (.inl r)) :
    priorityList.contains c = true ∧ r.trace = st.trace ++ [c] := by
  unfold step1 at h
  split at h
  · rename_i hc
    subst hc
    exact ⟨by decide, fieldMutCase_inl_trace _ _ _ _ _ h⟩
  · split at h
    · rename_i hc
      subst hc
      exact ⟨by decide, fieldMutCase_inl_trace _ _ _ _ _ h⟩
    · split at h
      · rename_i hc
        subst hc
        exact ⟨by decide, fieldMutCase_inl_trace _ _ _ _ _ h⟩
      · split at h
        · rename_i hc
          subst hc
          exact ⟨by decide, fieldMutCase_inl_trace _ _ _ _ _ h⟩
        · split at h
          · rename_i hc
            subst hc
            exact ⟨by decide, fieldMutCase_inl_trace _ _ _ _ _ h⟩
          · split at h
            · rename_i hc
              subst hc
              exact ⟨by decide, fieldMutCase_inl_trace _ _ _ _ _ h⟩
            · split at h
              · rename_i hc
                subst hc
                exact ⟨by decide, transCase_inl_trace _ _ h⟩
              · split at h
                · rename_i hc
                  subst hc
                  exact ⟨by decide, fieldMutCase_inl_trace _ _ _ _ _ h⟩
                · injection h with h
                  exact Sum.noConfusion h

theorem contains_false_of_ne {c : Char} {l : List Char}
    (h : ∀ x ∈ l, c ≠ x) : l.contains c = false := by
  induction l with
  | nil => rfl
  | cons x xs ih =>
    have hx : (c == x) = false := by
      have := h x (List.mem_cons_self x xs)
      simp [this]
    simp only [List.contains_cons, hx, Bool.false_or]
    exact ih (fun y hy => h y (List.mem_cons_of_mem x hy))

theorem step1_inr (st : LoopSt) (c : Char) (st' : LoopSt)
    (h : step1 st c = .ok (.inr st')) :
    st'.trace = st.trace ++ (if priorityList.contains c then [c] else []) ∧
    mapKeys st'.args = mapKeys st.args := by
  unfold step1 at h
  split at h
  · rename_i hc
    subst hc
    have := fieldMutCase_inr _ _ _ _ _ h
    simpa using this
  · split at h
    · rename_i hc
      subst hc
      have := fieldMutCase_inr _ _ _ _ _ h
      simpa using this
    · split at h
      · rename_i hc
        subst hc
        have := fieldMutCase_inr _ _ _ _ _ h
        simpa using this
      · split at h
        · rename_i hc
          subst hc
          have := fieldMutCase_inr _ _ _ _ _ h
          simpa using this
        · split at h
          · rename_i hc
            subst hc
            have := fieldMutCase_inr _ _ _ _ _ h
            simpa using this
          · split at h
            · rename_i hc
              subst hc
              have := fieldMutCase_inr _ _ _ _ _ h
              simpa using this
            · split at h
              · rename_i hc
                subst hc
                have := transCase_inr _ _ h
                simpa using this
              · split at h
                · rename_i hc
                  subst hc
                  have := fieldMutCase_inr _ _ _ _ _ h
                  simpa using this
                · rename_i h1 h2 h3 h4 h5 h6 h7 h8
                  injection h with h
                  injection h with h
                  subst h
                  have hcont : priorityList.contains c = false := by
                    refine contains_false_of_ne ?_
                    intro x hx
                    simp only [priorityList] at hx
                    fin_cases hx <;> assumption
                  have hmem : c ∉ priorityList := by simpa using hcont
                  simp [hcont, hmem]

theorem step2_inl (reportOK : String → Bool) (st : LoopSt) (c : Char) (r : RunRes)
    (h : step2 reportOK st c = .ok (.inl r)) :
    passTwoList.contains c = true ∧ r.trace = st.trace ++ [c] := by
  simp only [step2] at h
  split at h
  · rename_i hc
    subst hc
    refine ⟨by decide, ?_⟩
    split at h
    · injection h with h
      exact Sum.noConfusion h
    · split at h
      · exact Except.noConfusion h
      · injection h with h
        injection h with h
        subst h
        rfl
      · injection h with h
        exact Sum.noConfusion h
  · split at h
    · rename_i hc1 hc
      subst hc
      refine ⟨by decide, ?_⟩
      split at h
      · exact Except.noConfusion h
      · split at h
        · injection h with h
          exact Sum.noConfusion h
        · injection h with h
          injection h with h
          subst h
          rfl
    · injection h with h
      exact Sum.noConfusion h

theorem step2_inr (reportOK : String → Bool) (st : LoopSt) (c : Char) (st' : LoopSt)
    (h : step2 reportOK st c = .ok (.inr st')) :
    st'.trace = st.trace ++ (if passTwoList.contains c then [c] else []) ∧
    mapKeys st'.args = mapKeys st.args := by
  simp only [step2] at h
  split at h
  · rename_i hc
    subst hc
    split at h
    · injection h with h
      injection h with h
      subst h
      constructor
      · simp [passTwoList, O_INFO, O_REPORT]
      · show mapKeys (yankArg (yankArg (yankArg st.args O_INFO).2 O_NUM).2 O_PASS).2
            = mapKeys st.args
        rw [yankArg_keys, yankArg_keys, yankArg_keys]
    · split at h
      · exact Except.noConfusion h
      · injection h with h
        exact Sum.noConfusion h
      · injection h with h
        injection h with h
        subst h
        constructor
        · simp [passTwoList, O_INFO, O_REPORT]
        · show mapKeys (yankArg (yankArg (yankArg st.args O_INFO).2 O_NUM).2 O_PASS).2
              = mapKeys st.args
          rw [yankArg_keys, yankArg_keys, yankArg_keys]
  · split at h
    · rename_i hc1 hc
      subst hc
      split at h
      · exact Except.noConfusion h
      · split at h
        · injection h with h
          injection h with h
          subst h
          constructor
          · simp [passTwoList, O_INFO, O_REPORT]
          · show mapKeys (yankArg st.args O_REPORT).2 = mapKeys st.args
            rw [yankArg_keys]
        · injection h with h
          exact Sum.noConfusion h
    · rename_i h1 h2
      injection h with h
      injection h with h
      subst h
      have hcont : passTwoList.contains c = false := by
        refine contains_false_of_ne ?_
        intro x hx
        simp only [passTwoList] at hx
        fin_cases hx <;> assumption
      have hmem : c ∉ passTwoList := by simpa using hcont
      simp [hcont, hmem]

theorem runLoop1_inr_trace : ∀ (keys : List Char) (st st' : LoopSt),
    runLoop1 keys st = .ok (.inr st') →
    st'.trace = st.trace ++ keys.filter (fun c => priorityList.contains c) ∧
    mapKeys st'.args = mapKeys st.args := by
  intro keys
  induction keys with
  | nil =>
    intro st st' h
    injection h with h
    injection h with h
    subst h
    simp
  | cons c rest ih =>
    intro st st' h
    simp only [runLoop1] at h
    split at h
    · exact Except.noConfusion h
    · injection h with h
      exact Sum.noConfusion h
    · rename_i st1 heq
      obtain ⟨ht, hk⟩ := step1_inr st c st1 heq
      obtain ⟨ht', hk'⟩ := ih _ st' h
      constructor
      · rw [ht']
        show st1.trace ++ _ = _
        rw [ht, List.filter_cons]
        cases hc : priorityList.contains c <;> simp [hc, List.append_assoc]
      · rw [hk']
        exact hk

theorem runLoop1_inl_trace : ∀ (keys : List Char) (st : LoopSt) (r : RunRes),
    runLoop1 keys st = .ok (.inl r) →
    ∃ p t, p ++ t = keys.filter (fun c => priorityList.contains c) ∧
      r.trace = st.trace ++ p := by
  intro keys
  induction keys with
  | nil =>
    intro st r h
    injection h with h
    exact Sum.noConfusion h
  | cons c rest ih =>
    intro st r h
    simp only [runLoop1] at h
    split at h
    · exact Except.noConfusion h
    · rename_i r0 heq
      injection h with h
      injection h with h
      subst h
      obtain ⟨hc, ht⟩ := step1_inl st c r0 heq
      refine ⟨[c], rest.filter (fun c => priorityList.contains c), ?_, ht⟩
      rw [List.filter_cons, hc]
      rfl
    · rename_i st1 heq
      obtain ⟨ht, _⟩ := step1_inr st c st1 heq
      obtain ⟨p, t, hpt, hr⟩ := ih _ r h
      refine ⟨(if priorityList.contains c then [c] else []) ++ p, t, ?_, ?_⟩
      · rw [List.filter_cons]
        cases hc : priorityList.contains c <;> simp_all [List.append_assoc]
      · rw [hr]
        show _ = st.trace ++ _
        rw [ht]
        simp [List.append_assoc]

theorem runLoop2_inr_trace (reportOK : String → Bool) :
    ∀ (keys : List Char) (st st' : LoopSt),
    runLoop2 reportOK keys st = .ok (.inr st') →
    st'.trace = st.trace ++ keys.filter (fun c => passTwoList.contains c) := by
  intro keys
  induction keys with
  | nil =>
    intro st st' h
    injection h with h
    injection h with h
    subst h
    simp
  | cons c rest ih =>
    intro st st' h
    simp only [runLoop2] at h
    split at h
    · exact Except.noConfusion h
    · injection h with h
      exact Sum.noConfusion h
    · rename_i st1 heq
      obtain ⟨ht, _⟩ := step2_inr reportOK st c st1 heq
      have ht' := ih st1 st' h
      rw [ht', ht, List.filter_cons]
      cases hc : passTwoList.contains c <;> simp [hc, List.append_assoc]

theorem runLoop2_inl_trace (reportOK : String → Bool) :
    ∀ (keys : List Char) (st : LoopSt) (r : RunRes),
    runLoop2 reportOK keys st = .ok (.inl r) →
    ∃ p t, p ++ t = keys.filter (fun c => passTwoList.contains c) ∧
      r.trace = st.trace ++ p := by
  intro keys
  induction keys with
  | nil =>
    intro st r h
    injection h with h
    exact Sum.noConfusion h
  | cons c rest ih =>
    intro st r h
    simp only [runLoop2] at h
    split at h
    · exact Except.noConfusion h
    · rename_i r0 heq
      injection h with h
      injection h with h
      subst h
      obtain ⟨hc, ht⟩ := step2_inl reportOK st c r0 heq
      refine ⟨[c], rest.filter (fun c => passTwoList.contains c), ?_, ht⟩
      rw [List.filter_cons, hc]
      rfl
    · rename_i st1 heq
      obtain ⟨ht, _⟩ := step2_inr reportOK st c st1 heq
      obtain ⟨p, t, hpt, hr⟩ := ih st1 r h
      refine ⟨(if passTwoList.contains c then [c] else []) ++ p, t, ?_, ?_⟩
      · rw [List.filter_cons]
        cases hc : passTwoList.contains c <;> simp_all [List.append_assoc]
      · rw [hr, ht]
        simp [List.append_assoc]

instance : IsAntisymm Char (· < ·) := ⟨fun _ _ h1 h2 => absurd h2 (lt_asymm h1)⟩

theorem contains_eq_decide_mem (l : List Char) (c : Char) :
    l.contains c = decide (c ∈ l) := by
  show l.elem c = _
  exact List.elem_eq_mem c l

theorem filter_sorted_comm (l₁ l₂ : List Char)
    (h₁ : l₁.Sorted (· < ·)) (h₂ : l₂.Sorted (· < ·)) :
    l₁.filter (fun c => l₂.contains c) = l₂.filter (fun c => l₁.contains c) := by
  have hs₁ : (l₁.filter (fun c => l₂.contains c)).Sorted (· < ·) := h₁.filter _
  have hs₂ : (l₂.filter (fun c => l₁.contains c)).Sorted (· < ·) := h₂.filter _
  refine List.eq_of_perm_of_sorted ?_ hs₁ hs₂
  refine (List.perm_ext_iff_of_nodup (List.Nodup.filter _ h₁.nodup)
    (List.Nodup.filter _ h₂.nodup)).2 ?_
  intro a
  simp only [List.mem_filter, contains_eq_decide_mem, decide_eq_true_eq]
  tauto

theorem mem_mapKeys_sortArgsAux : ∀ (argv : List String) (m : ArgMap) (c : Char),
    c ∈ mapKeys (sortArgsAux argv m) ↔ c ∈ mapKeys m ∨ suppliedValues argv c ≠ [] := by
  intro argv
  induction argv with
  | nil =>
    intro m c
    simp [sortArgsAux, suppliedValues]
  | cons a rest ih =>
    intro m c
    cases h : argParse a with
    | none =>
      simp only [sortArgsAux, suppliedValues, List.filterMap_cons, h]
      simpa [suppliedValues] using ih m c
    | some p =>
      simp only [sortArgsAux, suppliedValues, List.filterMap_cons, h]
      by_cases hc : p.1 = c
      · simp only [if_pos hc]
        subst hc
        rw [ih (mapInsert m p.1 p.2) p.1, mem_mapKeys_mapInsert]
        simp [suppliedValues]
      · have hc' : ¬(c = p.1) := fun e => hc e.symm
        simp only [if_neg hc]
        have hih := ih (mapInsert m p.1 p.2) c
        rw [mem_mapKeys_mapInsert] at hih
        simp [hih, hc', suppliedValues, or_assoc]

theorem hasKey_sortArgs_iff (argv : List String) (c : Char) :
    hasKey (sortArgs argv) c = true ↔ suppliedValues argv c ≠ [] := by
  unfold hasKey sortArgs
  rw [contains_eq_decide_mem, decide_eq_true_eq, mem_mapKeys_sortArgsAux]
  simp [mapKeys]

theorem hasKey_perm_invariant (argv argv' : List String) (hp : argv.Perm argv')
    (c : Char) : hasKey (sortArgs argv') c = hasKey (sortArgs argv) c := by
  have hsp : (suppliedValues argv c).Perm (suppliedValues argv' c) := hp.filterMap _
  by_cases h : suppliedValues argv c = []
  · have h' : suppliedValues argv' c = [] := ((h ▸ hsp).symm).eq_nil
    have hA : hasKey (sortArgs argv) c = false := by
      rw [← Bool.not_eq_true, hasKey_sortArgs_iff]
      simp [h]
    have hB : hasKey (sortArgs argv') c = false := by
      rw [← Bool.not_eq_true, hasKey_sortArgs_iff]
      simp [h']
    rw [hA, hB]
  · have h' : suppliedValues argv' c ≠ [] := by
      intro hn
      exact h ((hn ▸ hsp).eq_nil)
    rw [(hasKey_sortArgs_iff argv c).2 h, (hasKey_sortArgs_iff argv' c).2 h']

/-- C7: for every run, the sequence of evaluated actions is a prefix of
the fixed order — mutation actions in the priority order change-area,
change-first, change-phone, change-last, change-middle, change-ssn,
transfer, change-password, each exactly when its code is present, and
only afterwards, in the second pass, info-display and then
report-emission, each exactly when present.  Which codes are present —
and hence the evaluation sequence — does not depend on the order the
switches appeared on the command line. -/
theorem C7_fixed_priority_order (argv : List String) (people : List Account)
    (reportOK : String → Bool) (r : RunRes)
    (h : parseArgsAfterLoad (sortArgs argv) people reportOK = .ok r) :
    (∃ t, r.trace ++ t =
      priorityList.filter (fun c => hasKey (sortArgs argv) c) ++
        passTwoList.filter (fun c => hasKey (sortArgs argv) c)) ∧
    (∀ argv', argv.Perm argv' →
      ∀ c, hasKey (sortArgs argv') c = hasKey (sortArgs argv) c) := by
  refine ⟨?_, fun argv' hp c => hasKey_perm_invariant argv argv' hp c⟩
  have hsortK : (mapKeys (sortArgs argv)).Sorted (· < ·) := mapSorted_sortArgs argv
  have hmut : (mapKeys (sortArgs argv)).filter (fun c => priorityList.contains c) =
      priorityList.filter (fun c => hasKey (sortArgs argv) c) :=
    filter_sorted_comm _ _ hsortK (by decide)
  have hp2 : (mapKeys (sortArgs argv)).filter (fun c => passTwoList.contains c) =
      passTwoList.filter (fun c => hasKey (sortArgs argv) c) :=
    filter_sorted_comm _ _ hsortK (by decide)
  simp only [parseArgsAfterLoad] at h
  split at h
  · exact Except.noConfusion h
  · rename_i r0 heq
    injection h with h
    subst h
    obtain ⟨p, t, hpt, hr⟩ := runLoop1_inl_trace _ _ _ heq
    refine ⟨t ++ passTwoList.filter (fun c => hasKey (sortArgs argv) c), ?_⟩
    rw [hr]
    show p ++ _ = _
    rw [← List.append_assoc, hpt, hmut]
  · rename_i st1 heq1
    have ht1 : st1.trace =
        (mapKeys (sortArgs argv)).filter (fun c => priorityList.contains c) := by
      simpa using (runLoop1_inr_trace _ _ _ heq1).1
    have hk1 : mapKeys st1.args = mapKeys (sortArgs argv) :=
      (runLoop1_inr_trace _ _ _ heq1).2
    split at h
    · exact Except.noConfusion h
    · rename_i r0 heq2
      injection h with h
      subst h
      obtain ⟨p, t, hpt, hr⟩ := runLoop2_inl_trace reportOK _ _ _ heq2
      rw [hk1, hp2] at hpt
      refine ⟨t, ?_⟩
      rw [hr, ht1, hmut]
      rw [List.append_assoc, hpt]
    · rename_i st2 heq2
      injection h with h
      subst h
      have ht2 := runLoop2_inr_trace reportOK _ _ _ heq2
      rw [hk1, hp2] at ht2
      refine ⟨[], ?_⟩
      show st2.trace ++ [] = _
      rw [List.append_nil, ht2, ht1, hmut]

/-- Witness for C7: a run supplying change-area, info and report (in a
scattered command-line order) evaluates exactly the sequence
change-area, info, report. -/
theorem C7_fixed_priority_order_witness :
    ∃ t, (RunRes.mk 0 [{ acctA with area := 777 }, acctB]
        (some [{ acctA with area := 777 }, acctB])
        [O_CHANGE_AREA, O_INFO, O_REPORT]).trace ++ t =
      priorityList.filter (fun c => hasKey
        (sortArgs ["./bankacct", "/I", "/Ddb", "/Rrep", "/A777", "/NA0001", "/PABC123"]) c) ++
      passTwoList.filter (fun c => hasKey
        (sortArgs ["./bankacct", "/I", "/Ddb", "/Rrep", "/A777", "/NA0001", "/PABC123"]) c) :=
  (C7_fixed_priority_order
    ["./bankacct", "/I", "/Ddb", "/Rrep", "/A777", "/NA0001", "/PABC123"]
    [acctA, acctB] alwaysWritable _ (by with_unfolding_all rfl)).1

/-! ### Claim C6: decimal-rendering lemmas

`natRepr` (the model of `operator<<(unsigned)`) applied to the value a
digit token parses to reproduces the token with its leading zeros
stripped. -/

theorem isDigitChar_bounds (c : Char) (h : isDigitChar c = true) :
    48 ≤ c.toNat ∧ c.toNat ≤ 57 := by
  simpa [isDigitChar] using h

theorem charVal_lt_ten (c : Char) (h : isDigitChar c = true) : charVal c < 10 := by
  have := isDigitChar_bounds c h
  unfold charVal
  omega

theorem digitChar_charVal (c : Char) (h : isDigitChar c = true) :
    digitChar (charVal c) = c := by
  obtain ⟨h1, h2⟩ := isDigitChar_bounds c h
  have hv : c.toNat = 48 + charVal c := by
    unfold charVal
    omega
  have hlt : charVal c < 10 := charVal_lt_ten c h
  have : digitChar (charVal c) = Char.ofNat (48 + charVal c) := by
    interval_cases (charVal c) <;> rfl
  rw [this, ← hv, Char.ofNat_toNat]

theorem charVal_eq_zero_iff (c : Char) (h : isDigitChar c = true) :
    charVal c = 0 ↔ c = '0' := by
  constructor
  · intro h0
    obtain ⟨h1, h2⟩ := isDigitChar_bounds c h
    have : c.toNat = 48 := by
      unfold charVal at h0
      omega
    calc c = Char.ofNat c.toNat := (Char.ofNat_toNat c).symm
      _ = '0' := by rw [this]
  · intro h0
    subst h0
    rfl

/-- The digit list of `n` with ample fuel. -/
def digitsOf (n : Nat) : List Char := natReprAux (n + 1) n

theorem natReprAux_congr : ∀ (f g n : Nat), n < f → n < g →
    natReprAux f n = natReprAux g n := by
  intro f
  induction f with
  | zero => intro g n hf; omega
  | succ f ih =>
    intro g n hf hg
    cases g with
    | zero => omega
    | succ g =>
      simp only [natReprAux]
      by_cases hn : n = 0
      · simp [hn]
      · simp only [if_neg hn]
        have hdiv : n / 10 < n := Nat.div_lt_self (Nat.pos_of_ne_zero hn) (by omega)
        rw [ih g (n / 10) (by omega) (by omega)]

theorem digitsOf_step (n : Nat) (hn : n ≠ 0) :
    digitsOf n = digitsOf (n / 10) ++ [digitChar (n % 10)] := by
  show natReprAux (n + 1) n = _
  rw [natReprAux, if_neg hn]
  have hdiv : n / 10 < n := Nat.div_lt_self (Nat.pos_of_ne_zero hn) (by omega)
  rw [natReprAux_congr n (n / 10 + 1) (n / 10) (by omega) (by omega)]
  rfl

theorem digitsToNat_snoc (ds : List Char) (c : Char) :
    digitsToNat (ds ++ [c]) = 10 * digitsToNat ds + charVal c := by
  unfold digitsToNat
  rw [List.foldl_append]
  rfl

theorem digitsToNat_acc (ds : List Char) : ∀ acc : Nat,
    ds.foldl (fun a c => 10 * a + charVal c) acc =
      acc * 10 ^ ds.length + digitsToNat ds := by
  induction ds with
  | nil => intro acc; simp [digitsToNat]
  | cons c cs ih =>
    intro acc
    show cs.foldl _ (10 * acc + charVal c) = acc * 10 ^ (c :: cs).length + digitsToNat (c :: cs)
    rw [ih (10 * acc + charVal c)]
    have : digitsToNat (c :: cs) = charVal c * 10 ^ cs.length + digitsToNat cs := by
      show cs.foldl _ (10 * 0 + charVal c) = _
      rw [ih (10 * 0 + charVal c)]
      ring_nf
    rw [this]
    simp [List.length_cons]
    ring

theorem digitsToNat_cons (c : Char) (cs : List Char) :
    digitsToNat (c :: cs) = charVal c * 10 ^ cs.length + digitsToNat cs := by
  show cs.foldl _ (10 * 0 + charVal c) = _
  rw [digitsToNat_acc cs (10 * 0 + charVal c)]
  ring_nf

theorem digitsToNat_pos (c : Char) (cs : List Char) (hd : isDigitChar c = true)
    (h0 : c ≠ '0') : 0 < digitsToNat (c :: cs) := by
  rw [digitsToNat_cons]
  have hv : charVal c ≠ 0 := fun h => h0 ((charVal_eq_zero_iff c hd).1 h)
  have : 0 < 10 ^ cs.length := Nat.pos_pow_of_pos _ (by omega)
  have : 1 * 1 ≤ charVal c * 10 ^ cs.length :=
    Nat.mul_le_mul (by omega) (by omega)
  omega

theorem digitsOf_digitsToNat : ∀ (ds : List Char),
    (∀ c ∈ ds, isDigitChar c = true) →
    (∀ c, ds.head? = some c → c ≠ '0') → ds ≠ [] →
    digitsOf (digitsToNat ds) = ds := by
  intro ds
  induction ds using List.reverseRecOn with
  | nil => intro _ _ hne; exact absurd rfl hne
  | append_singleton init b ih =>
    intro hall hhd _
    have hb : isDigitChar b = true := hall b (by simp)
    have hblt : charVal b < 10 := charVal_lt_ten b hb
    by_cases hinit : init = []
    · subst hinit
      simp only [List.nil_append] at hhd ⊢
      have hb0 : b ≠ '0' := hhd b rfl
      have hv0 : charVal b ≠ 0 := fun h => hb0 ((charVal_eq_zero_iff b hb).1 h)
      have hval : digitsToNat [b] = charVal b := by
        show digitsToNat ([] ++ [b]) = charVal b
        rw [digitsToNat_snoc]
        simp [digitsToNat]
      rw [hval, digitsOf_step (charVal b) (by omega)]
      rw [Nat.div_eq_of_lt hblt, Nat.mod_eq_of_lt hblt]
      show natReprAux 1 0 ++ _ = _
      rw [digitChar_charVal b hb]
      rfl
    · obtain ⟨c, cs, hcc⟩ := List.exists_cons_of_ne_nil hinit
      have hcd : isDigitChar c = true := by
        refine hall c ?_
        rw [hcc]
        simp
      have hc0 : c ≠ '0' := by
        refine hhd c ?_
        rw [hcc]
        rfl
      have hKpos : 0 < digitsToNat init := by
        rw [hcc]
        exact digitsToNat_pos c cs hcd hc0
      have hN : digitsToNat (init ++ [b]) = 10 * digitsToNat init + charVal b :=
        digitsToNat_snoc init b
      have hNne : digitsToNat (init ++ [b]) ≠ 0 := by omega
      rw [digitsOf_step _ hNne, hN]
      have hdiv : (10 * digitsToNat init + charVal b) / 10 = digitsToNat init := by
        rw [Nat.mul_add_div (by omega)]
        rw [Nat.div_eq_of_lt hblt]
        omega
      have hmod : (10 * digitsToNat init + charVal b) % 10 = charVal b := by
        rw [Nat.mul_add_mod]
        exact Nat.mod_eq_of_lt hblt
      rw [hdiv, hmod, digitChar_charVal b hb]
      have hhd2 : ∀ x, init.head? = some x → x ≠ '0' := by
        intro x hx
        refine hhd x ?_
        rw [hcc] at hx ⊢
        rw [List.cons_append]
        simpa using hx
      rw [ih (fun x hx => hall x (List.mem_append_left [b] hx)) hhd2 hinit]

theorem digitsToNat_dropWhile_zeros : ∀ ds : List Char,
    digitsToNat (ds.dropWhile (fun c => c = '0')) = digitsToNat ds := by
  intro ds
  induction ds with
  | nil => rfl
  | cons c cs ih =>
    by_cases h : c = '0'
    · subst h
      rw [List.dropWhile_cons_of_pos (by simp), ih]
      rw [digitsToNat_cons]
      show digitsToNat cs = 0 * 10 ^ cs.length + digitsToNat cs
      omega
    · rw [List.dropWhile_cons_of_neg (by simp [h])]

theorem head?_dropWhile_zeros : ∀ (ds : List Char) (c : Char),
    (ds.dropWhile (fun c => c = '0')).head? = some c → c ≠ '0' := by
  intro ds
  induction ds with
  | nil => intro c h; cases h
  | cons x xs ih =>
    intro c h
    by_cases hx : x = '0'
    · subst hx
      rw [List.dropWhile_cons_of_pos (by simp)] at h
      exact ih c h
    · rw [List.dropWhile_cons_of_neg (by simp [hx])] at h
      injection h with h
      subst h
      exact hx

theorem natRepr_eq_stripZeros (ds : List Char)
    (hall : ∀ c ∈ ds, isDigitChar c = true) :
    natRepr (digitsToNat ds) = stripZeros ⟨ds⟩ := by
  have htl : (⟨ds⟩ : String).toList = ds := rfl
  unfold stripZeros
  rw [htl]
  cases hD : ds.dropWhile (fun c => c = '0') with
  | nil =>
    have : digitsToNat ds = 0 := by
      rw [← digitsToNat_dropWhile_zeros, hD]
      rfl
    rw [this]
    rfl
  | cons c cs =>
    have hvs : digitsToNat ds = digitsToNat (c :: cs) := by
      rw [← digitsToNat_dropWhile_zeros, hD]
    have hsub : ∀ x ∈ c :: cs, isDigitChar x = true := by
      intro x hx
      refine hall x ?_
      have := (List.dropWhile_sublist (l := ds) (p := fun c => c = '0'))
      rw [hD] at this
      exact this.mem hx
    have hc0 : c ≠ '0' := by
      refine head?_dropWhile_zeros ds c ?_
      rw [hD]
      rfl
    have hpos : digitsToNat (c :: cs) ≠ 0 := by
      have := digitsToNat_pos c cs (hsub c (by simp)) hc0
      omega
    rw [hvs]
    unfold natRepr
    rw [if_neg hpos]
    have : natReprAux (digitsToNat (c :: cs) + 1) (digitsToNat (c :: cs)) = c :: cs :=
      digitsOf_digitsToNat (c :: cs) hsub
        (fun x hx => by
          injection hx with hx
          subst hx
          exact hc0)
        (by simp)
    rw [this]

theorem parseNat?_inv (s : String) (v : Nat) (h : parseNat? s = some v) :
    v = digitsToNat s.toList ∧ s.toList ≠ [] ∧
      ∀ c ∈ s.toList, isDigitChar c = true := by
  simp only [parseNat?] at h
  split at h
  · rename_i hcond
    injection h with h
    subst h
    exact ⟨rfl, hcond.1, fun c hc => (List.all_eq_true.mp hcond.2.1) c hc⟩
  · exact Option.noConfusion h

theorem natRepr_parseNat (s : String) (v : Nat) (h : parseNat? s = some v) :
    natRepr v = stripZeros s := by
  obtain ⟨hv, _, hall⟩ := parseNat?_inv s v h
  subst hv
  have := natRepr_eq_stripZeros s.toList hall
  rwa [show (⟨s.toList⟩ : String) = s from rfl] at this

theorem WFRecord_shape (r : List String) (h : WFRecord r = true) :
    ∃ l f m so ar ph b n pw, r = [l, f, m, so, ar, ph, b, n, pw] := by
  unfold WFRecord at h
  split at h
  · rename_i l f m so ar ph b n pw
    exact ⟨l, f, m, so, ar, ph, b, n, pw, rfl⟩
  · exact absurd h (by simp)

theorem parseRecord_of_WF (l f m so ar ph b n pw : String)
    (h : WFRecord [l, f, m, so, ar, ph, b, n, pw] = true) :
    ∃ a, parseRecord? l f m so ar ph b n pw = some a ∧
      writeAccountTokens a = amendedRoundTripRecord [l, f, m, so, ar, ph, b, n, pw] := by
  have h' : (decide (l.toList.length ≤ LAST_NAME_LENGTH) &&
      decide (f.toList.length ≤ FIRST_NAME_LENGTH) &&
      decide (m.toList.length = 1) &&
      (parseNat? so).isSome && (parseNat? ar).isSome && (parseNat? ph).isSome &&
      (parseBalance? b).isSome &&
      decide (n.toList.length ≤ ACC_NUM_LENGTH) &&
      decide (pw.toList.length ≤ PASS_LENGTH)) = true := by
    have := h
    unfold WFRecord at this
    simp only [Bool.and_eq_true] at this ⊢
    tauto
  simp only [Bool.and_eq_true, decide_eq_true_eq] at h'
  obtain ⟨⟨⟨⟨⟨⟨⟨⟨hl, hf⟩, hm⟩, hso⟩, har⟩, hph⟩, hb⟩, hn⟩, hpw⟩ := h'
  obtain ⟨mc, hmc⟩ := List.length_eq_one.mp hm
  obtain ⟨soc, hsoc⟩ := Option.isSome_iff_exists.mp hso
  obtain ⟨arc, harc⟩ := Option.isSome_iff_exists.mp har
  obtain ⟨phc, hphc⟩ := Option.isSome_iff_exists.mp hph
  obtain ⟨bal, hbal⟩ := Option.isSome_iff_exists.mp hb
  refine ⟨{ first := f, last := l, middle := mc, social := soc, area := arc,
            phone := phc, balance := bal, number := n, password := pw,
            nameLength := f.toList.length + l.toList.length + 4 }, ?_, ?_⟩
  · unfold parseRecord?
    rw [hmc, hsoc, harc, hphc, hbal]
    exact if_pos ⟨hl, hf, hn, hpw⟩
  · show [l, f, (⟨[mc]⟩ : String), natRepr soc, natRepr arc, natRepr phc,
      formatBalance bal, n, pw] =
      [l, f, m, stripZeros so, stripZeros ar, stripZeros ph,
       formatBalance ((parseBalance? b).getD 0), n, pw]
    rw [← hmc, show (⟨m.toList⟩ : String) = m from rfl,
      natRepr_parseNat so soc hsoc, natRepr_parseNat ar arc harc,
      natRepr_parseNat ph phc hphc, hbal]
    rfl

/-- C6 counterexample: for the source record
`Doe Jane J 123456789 555 5551234 100.00 A0001 ABC123` (well-formed),
load-then-persist does NOT reproduce the token multiset up to
leading-zero loss on social/area/phone alone: the balance token
`100.00` is re-serialised as `100`. -/
theorem C6_roundtrip_counterexample :
    WFRecord ["Doe", "Jane", "J", "123456789", "555", "5551234", "100.00",
      "A0001", "ABC123"] = true ∧
    loadDatabase ["Doe", "Jane", "J", "123456789", "555", "5551234", "100.00",
      "A0001", "ABC123"] true = some [acctA] ∧
    ¬ List.Perm
      (persistTokens [acctA])
      (specRoundTripRecord ["Doe", "Jane", "J", "123456789", "555", "5551234",
        "100.00", "A0001", "ABC123"]) := by
  refine ⟨by with_unfolding_all rfl, by with_unfolding_all rfl, ?_⟩
  with_unfolding_all decide

/-- C6 (amended): for every source file consisting of well-formed
9-token records (and ending in whitespace, without which the loader
discards the final record), loading and immediately persisting
reproduces each record with the text fields verbatim, the social, area
and phone tokens up to loss of leading zeros, and the balance token
re-serialised through the default `double` output format. -/
theorem C6_roundtrip_up_to_rendering (records : List (List String))
    (h : ∀ r ∈ records, WFRecord r = true) :
    ∃ accts, loadDatabase records.flatten true = some accts ∧
      persistTokens accts = (records.map amendedRoundTripRecord).flatten := by
  induction records with
  | nil => exact ⟨[], rfl, rfl⟩
  | cons r rest ih =>
    obtain ⟨accts, hload, hpersist⟩ := ih (fun x hx => h x (List.mem_cons_of_mem _ hx))
    have hr := h r (List.mem_cons_self r rest)
    obtain ⟨l, f, m, so, ar, ph, b, n, pw, rfl⟩ := WFRecord_shape r hr
    obtain ⟨a, hparse, hwrite⟩ := parseRecord_of_WF l f m so ar ph b n pw hr
    refine ⟨a :: accts, ?_, ?_⟩
    · show loadDatabase
        (l :: f :: m :: so :: ar :: ph :: b :: n :: pw :: rest.flatten) true = _
      simp only [loadDatabase, hparse, hload]
      simp
    · show writeAccountTokens a ++ persistTokens accts = _
      rw [hwrite, hpersist]
      rfl

/-- The two records of the demonstration database file as 9-token rows. -/
def recA : List String :=
  ["Doe", "Jane", "J", "123456789", "555", "5551234", "100.00", "A0001", "ABC123"]

def recB : List String :=
  ["Roe", "Jon", "K", "222222222", "666", "6662345", "10.00", "A0002", "DEF456"]

/-- Witness for the amended C6 at the two-record demonstration file. -/
theorem C6_roundtrip_up_to_rendering_witness :
    ∃ accts, loadDatabase (List.flatten [recA, recB]) true = some accts ∧
      persistTokens accts = ([recA, recB].map amendedRoundTripRecord).flatten :=
  C6_roundtrip_up_to_rendering [recA, recB] (by
    intro r hr
    fin_cases hr <;> with_unfolding_all rfl)

end Bankacct
